import Mathlib

/-!
Verification of the Zyxel switch CLI tool (`main.go`).

The program opens an SSH session to a switch, waits for the `#` prompt,
sends one command, collects the response (handling `more` pagination,
idle timeout and a hard deadline), cleans the accumulated output and
prints it line by line.

The interactive engine is embedded shallowly: the two select-loops
(`waitPrompt` and `readLoop`) become step functions over explicit signal
traces, the background reader goroutine becomes a small-step trace
machine, and the output cleaning becomes a pure function on strings.
Strings are Lean `String`s; the Go string primitives used by the program
(`strings.Contains`, `strings.ToLower`, `strings.TrimRight`,
`strings.HasSuffix`, `strings.Split`) are re-defined below on `List Char`
so that every definition is executable and decidable.
-/

namespace Zyxel

/-! ## Go string primitives -/

/-- Test whether `needle` is an initial segment of `hay`
(Go `strings.HasPrefix`, char-level). -/
def startsWithList : List Char → List Char → Bool
  | [], _ => true
  | _ :: _, [] => false
  | a :: as, b :: bs => a == b && startsWithList as bs

/-- Test whether `needle` occurs contiguously inside `hay`
(Go `strings.Contains`, char-level). -/
def hasSubstr : List Char → List Char → Bool
  | [], needle => startsWithList needle []
  | h :: t, needle => startsWithList needle (h :: t) || hasSubstr t needle

/-- Go `strings.Contains(s, sub)`. -/
def strContains (s sub : String) : Bool :=
  hasSubstr s.data sub.data

/-- Go `strings.HasSuffix(s, suffix)`. -/
def strHasSuffix (s suffix : String) : Bool :=
  startsWithList suffix.data.reverse s.data.reverse

/-- Go `strings.ToLower(s)` (ASCII case mapping, which is all the
program relies on: it only searches for `"more"`). -/
def strToLower (s : String) : String :=
  ⟨s.data.map Char.toLower⟩

/-- Go `strings.TrimRight(s, cutset)`: remove all trailing characters
that belong to `cutset`. -/
def trimRightCutset (s : String) (cutset : List Char) : String :=
  ⟨(s.data.reverse.dropWhile (fun c => decide (c ∈ cutset))).reverse⟩

/-- Split a character list at every newline character
(Go `strings.Split(s, "\n")`, char-level). -/
def splitNl : List Char → List (List Char)
  | [] => [[]]
  | c :: t =>
    let r := splitNl t
    if c == '\n' then [] :: r
    else
      match r with
      | [] => [[c]]
      | h :: t2 => (c :: h) :: t2

/-- Go `strings.Split(result, "\n")`. -/
def splitLines (s : String) : List String :=
  (splitNl s.data).map fun l => ⟨l⟩

/-! ## Prompt-wait phase (`waitPrompt` loop, main.go 158-174)

The loop selects over the reader channel, the 5-second timer and the
error channel.  A signal trace element records which `select` arm fired. -/

/-- A signal observed by the prompt-wait loop. -/
inductive PromptSig
  | data (chunk : String)
  | streamErr
  | deadline
deriving DecidableEq

/-- How the prompt-wait phase ended. -/
inductive PromptOutcome
  | ready
  | promptTimeout
  | connectionClosed
deriving DecidableEq

/-- One iteration of the `waitPrompt` loop: a `#` anywhere in a chunk
means the prompt arrived; the timer means fatal timeout; a read error
means the connection closed.  `none` means the loop keeps waiting. -/
def waitPromptStep : PromptSig → Option PromptOutcome
  | .data chunk => if strContains chunk "#" then some .ready else none
  | .deadline => some .promptTimeout
  | .streamErr => some .connectionClosed

/-- Run the `waitPrompt` loop over a finite signal trace; `none` means
the trace ended with the loop still waiting (in the program the 5-second
timer always eventually fires, so a completed run always resolves). -/
def runWaitPrompt : List PromptSig → Option PromptOutcome
  | [] => none
  | sig :: rest =>
    match waitPromptStep sig with
    | some r => some r
    | none => runWaitPrompt rest

/-! ## Response-collection phase (`readLoop`, main.go 185-220) -/

/-- The mutable state of the `readLoop`: the `output` builder and the
`seenContent` flag.  `lastRead` is not stored: elapsed idle time is
carried by the poll signal instead. -/
structure CollectState where
  output : String
  seenContent : Bool
deriving DecidableEq

/-- A signal observed by the `readLoop` `select`: a chunk from the
reader channel, a read error, the 30-second timer, or the `default`
branch polling with `elapsedMs` milliseconds since `lastRead`. -/
inductive Sig
  | data (chunk : String)
  | streamErr
  | deadline
  | idlePoll (elapsedMs : Nat)
deriving DecidableEq

/-- Which branch broke out of the `readLoop`. -/
inductive ExitReason
  | terminator
  | streamEnd
  | deadline
  | idleQuiet
deriving DecidableEq

/-- Outcome of one `readLoop` iteration: continue with a new state and a
list of strings written to stdin, or break out of the loop. -/
inductive StepOut
  | next (st : CollectState) (writes : List String)
  | stop (st : CollectState) (reason : ExitReason)
deriving DecidableEq

/-- One iteration of the `readLoop` (main.go 185-220).  On a chunk:
append to output; if its lowercase form contains `"more"` write one
space and continue; otherwise record `seenContent` when the chunk has a
newline and, once `seenContent` holds, break when the output trimmed of
trailing `" \r\n"` ends in `#`.  A read error or the 30-second timer
breaks the loop.  The default branch breaks after 500 ms of idle time
provided some output has accumulated. -/
def readLoopStep (st : CollectState) : Sig → StepOut
  | .data chunk =>
    if strContains (strToLower chunk) "more" then
      .next ⟨st.output ++ chunk, st.seenContent⟩ [" "]
    else
      if (st.seenContent || strContains chunk "\n") &&
          strHasSuffix
            (trimRightCutset (st.output ++ chunk) [' ', '\r', '\n']) "#" then
        .stop ⟨st.output ++ chunk, st.seenContent || strContains chunk "\n"⟩
          .terminator
      else
        .next ⟨st.output ++ chunk, st.seenContent || strContains chunk "\n"⟩ []
  | .streamErr => .stop st .streamEnd
  | .deadline => .stop st .deadline
  | .idlePoll elapsedMs =>
    if 500 < elapsedMs && !st.output.data.isEmpty then
      .stop st .idleQuiet
    else
      .next st []

/-- Run the `readLoop` over a finite signal trace, returning the final
state and the exit reason (`none` when the trace ran out with the loop
still spinning). -/
def runReadLoop (st : CollectState) : List Sig → CollectState × Option ExitReason
  | [] => (st, none)
  | sig :: rest =>
    match readLoopStep st sig with
    | .next st2 _ => runReadLoop st2 rest
    | .stop st2 r => (st2, some r)

/-- The state the `readLoop` starts from: empty output, no content seen. -/
def initCollect : CollectState := ⟨"", false⟩

/-- The state carried by a step outcome. -/
def stepState : StepOut → CollectState
  | .next st _ => st
  | .stop st _ => st

/-! ## Output cleaning (main.go 224-237) -/

/-- The slice `lines[1 : len(lines)-1]` taken only when there are more
than two lines (main.go 228-230). -/
def selectBody (lines : List String) : List String :=
  if lines.length > 2 then (lines.drop 1).dropLast else lines

/-- The printing loop (main.go 232-237): each line is trimmed of
trailing carriage-returns and printed only when non-empty. -/
def printLines : List String → List String
  | [] => []
  | l :: rest =>
    let l2 := trimRightCutset l ['\r']
    if l2 != "" then l2 :: printLines rest else printLines rest

/-- The full cleaning pass: split on newlines, drop the echo and prompt
lines when there are more than two lines, then trim and filter. -/
def cleanOutput (result : String) : List String :=
  printLines (selectBody (splitLines result))

/-- The per-line rule exactly as the spec's words have it: strip a
single trailing carriage-return if one is present.  (The program
instead calls `strings.TrimRight(line, "\r")`, which strips every
trailing carriage-return; the two are compared below.) -/
def stripOneCR (l : String) : String :=
  if strHasSuffix l "\r" then ⟨l.data.dropLast⟩ else l

/-- The printing loop with the spec-worded single-strip rule. -/
def printLinesOneCR : List String → List String
  | [] => []
  | l :: rest =>
    if stripOneCR l != "" then stripOneCR l :: printLinesOneCR rest
    else printLinesOneCR rest

/-- The cleaning pass with the spec-worded single-strip rule. -/
def cleanOutputOneCR (result : String) : List String :=
  printLinesOneCR (selectBody (splitLines result))

/-! ## Background reader goroutine (main.go 139-156)

The goroutine loops on a `select` with a `done` case and a `default`
case whose body performs the blocking `stdout.Read` and sends the result
to the (buffered) `readCh`, or sends the error once to `errCh` and
returns.  `done` is only consulted between reads, so a read already in
flight when `done` closes still has its result emitted.

The trace model splits time into atomic events: `setFlag` is the
foreground closing `done`; `readRet r` is the in-flight read returning
(`some chunk` on success, `none` on error).  Each emission is recorded
together with the value of the flag at the moment it is emitted. -/

/-- A signal the reader goroutine places on a channel. -/
inductive REmit
  | dataSig (chunk : String)
  | errSig
deriving DecidableEq

/-- An atomic event in a reader-goroutine trace. -/
inductive REv
  | setFlag
  | readRet (r : Option String)
deriving DecidableEq

/-- The control point of the reader goroutine: a read is in flight, or
the goroutine has returned. -/
inductive RState
  | reading
  | finished
deriving DecidableEq

/-- Run the reader goroutine over an event trace, collecting every
emission paired with the flag value when it was emitted.  A completed
read is always emitted (`readCh` is buffered, `errCh` send happens
before the goroutine returns); only then does the loop re-check the
flag, returning when it is set and issuing the next read otherwise. -/
def readerRun : RState → Bool → List REv → List (Bool × REmit)
  | _, _, [] => []
  | st, flag, ev :: rest =>
    match ev with
    | .setFlag => readerRun st true rest
    | .readRet r =>
      match st with
      | .finished => readerRun .finished flag rest
      | .reading =>
        match r with
        | some c =>
          (flag, .dataSig c) ::
            readerRun (if flag then .finished else .reading) flag rest
        | none => (flag, .errSig) :: readerRun .finished flag rest

/-! ## The engine end to end -/

/-- Fatal errors of the engine (both abort before any output is
printed). -/
inductive EngineError
  | promptTimeout
  | connectionClosed
deriving DecidableEq

/-- The engine: run prompt-wait; on readiness run the `readLoop` from an
empty buffer over the collection trace and clean whatever accumulated;
otherwise fail.  An exhausted prompt trace stands for the 5-second timer
firing with nothing more to read. -/
def runEngine (psigs : List PromptSig) (csigs : List Sig) :
    Except EngineError (List String) :=
  match runWaitPrompt psigs with
  | some .ready => .ok (cleanOutput (runReadLoop initCollect csigs).1.output)
  | some .promptTimeout => .error .promptTimeout
  | some .connectionClosed => .error .connectionClosed
  | none => .error .promptTimeout

/-! ## Helper lemmas on the string primitives -/

theorem startsWithList_single {c : Char} {l : List Char}
    (h : startsWithList [c] l = true) : c ∈ l := by
  cases l with
  | nil => simp [startsWithList] at h
  | cons b bs =>
    simp [startsWithList] at h
    simp [h]

theorem hasSubstr_single_of_mem {c : Char} {l : List Char}
    (h : c ∈ l) : hasSubstr l [c] = true := by
  induction l with
  | nil => simp at h
  | cons b bs ih =>
    rcases List.mem_cons.mp h with h1 | h2
    · subst h1
      simp [hasSubstr, startsWithList]
    · simp [hasSubstr, ih h2]

theorem mem_of_mem_trimRightCutset {s : String} {cut : List Char} {c : Char}
    (h : c ∈ (trimRightCutset s cut).data) : c ∈ s.data := by
  simp only [trimRightCutset, List.mem_reverse] at h
  have hsub : c ∈ s.data.reverse :=
    (List.dropWhile_sublist (l := s.data.reverse)
      (p := fun c => decide (c ∈ cut))).mem h
  exact List.mem_reverse.mp hsub

theorem strContains_hash_of_suffix {s : String} {cut : List Char}
    (h : strHasSuffix (trimRightCutset s cut) "#" = true) :
    strContains s "#" = true := by
  have e : ("#" : String).data = ['#'] := rfl
  simp only [strHasSuffix, e, List.reverse_singleton] at h
  have h1 : '#' ∈ (trimRightCutset s cut).data.reverse := startsWithList_single h
  have h2 : '#' ∈ s.data := mem_of_mem_trimRightCutset (List.mem_reverse.mp h1)
  simpa [strContains, e] using hasSubstr_single_of_mem h2

/-- The result of `dropWhile` is either empty or starts with an element
refuting the predicate. -/
theorem dropWhile_shape (p : Char → Bool) (l : List Char) :
    l.dropWhile p = [] ∨
      ∃ h t, l.dropWhile p = h :: t ∧ p h = false := by
  induction l with
  | nil => left; rfl
  | cons a l ih =>
    by_cases hp : p a = true
    · simpa [List.dropWhile_cons, hp] using ih
    · right
      exact ⟨a, l, by simp [List.dropWhile_cons, hp], by simpa using hp⟩

/-- After trimming trailing characters of `cut`, the result does not end
with any character of `cut`. -/
theorem trimRightCutset_no_trailing {s : String} {cut : List Char} {c : Char}
    (hc : c ∈ cut) : strHasSuffix (trimRightCutset s cut) ⟨[c]⟩ = false := by
  have e : (⟨[c]⟩ : String).data.reverse = [c] := rfl
  simp only [strHasSuffix, e, trimRightCutset, List.reverse_reverse]
  rcases dropWhile_shape (fun x => decide (x ∈ cut)) s.data.reverse with
    h | ⟨b, t, h, hb⟩
  · simp [h, startsWithList]
  · rw [h]
    have hne : (c == b) = false := by
      by_contra hne2
      have hcb : c = b := beq_iff_eq.mp (by simpa using hne2)
      exact of_decide_eq_false hb (hcb ▸ hc)
    simp [startsWithList, hne]

/-! ## Step and run lemmas for the readLoop -/

/-- A step can only raise `seenContent` through a data chunk containing
a newline. -/
theorem readLoopStep_seen {st : CollectState} {sig : Sig}
    (h : (stepState (readLoopStep st sig)).seenContent = true) :
    st.seenContent = true ∨
      ∃ c, sig = Sig.data c ∧ strContains c "\n" = true := by
  cases sig with
  | data chunk =>
    simp only [readLoopStep] at h
    split at h
    · left; simpa [stepState] using h
    · split at h <;>
      · simp only [stepState] at h
        rw [Bool.or_eq_true] at h
        rcases h with h2 | h2
        · exact Or.inl h2
        · exact Or.inr ⟨chunk, rfl, h2⟩
  | streamErr => left; simpa [readLoopStep, stepState] using h
  | deadline => left; simpa [readLoopStep, stepState] using h
  | idlePoll elapsedMs =>
    simp only [readLoopStep] at h
    split at h <;> (left; simpa [stepState] using h)

/-- A run can only end with `seenContent` raised if some data chunk in
the trace contained a newline. -/
theorem runReadLoop_seen :
    ∀ (sigs : List Sig) (st st' : CollectState) (o : Option ExitReason),
      runReadLoop st sigs = (st', o) → st'.seenContent = true →
      st.seenContent = true ∨
        ∃ c, Sig.data c ∈ sigs ∧ strContains c "\n" = true := by
  intro sigs
  induction sigs with
  | nil =>
    intro st st' o h hseen
    simp only [runReadLoop] at h
    injection h with h1 h2
    subst h1
    exact Or.inl hseen
  | cons sig rest ih =>
    intro st st' o h hseen
    rw [runReadLoop] at h
    split at h
    · rename_i st2 w heq
      rcases ih st2 st' o h hseen with h2 | ⟨c, hc, hnl⟩
      · have h3 : (stepState (readLoopStep st sig)).seenContent = true := by
          rw [heq]; exact h2
        rcases readLoopStep_seen h3 with h4 | ⟨c, rfl, hnl⟩
        · exact Or.inl h4
        · exact Or.inr ⟨c, List.mem_cons_self _ _, hnl⟩
      · exact Or.inr ⟨c, List.mem_cons_of_mem _ hc, hnl⟩
    · rename_i st2 r heq
      injection h with h1 h2
      subst h1
      have h3 : (stepState (readLoopStep st sig)).seenContent = true := by
        rw [heq]; exact hseen
      rcases readLoopStep_seen h3 with h4 | ⟨c, rfl, hnl⟩
      · exact Or.inl h4
      · exact Or.inr ⟨c, List.mem_cons_self _ _, hnl⟩

/-- Shape of a terminator stop: it comes from a non-pagination data
chunk, with `seenContent` raised and the trimmed output ending in `#`. -/
theorem readLoopStep_stop_terminator {st st' : CollectState} {sig : Sig}
    (h : readLoopStep st sig = .stop st' .terminator) :
    st'.seenContent = true ∧
      strHasSuffix (trimRightCutset st'.output [' ', '\r', '\n']) "#" = true := by
  cases sig with
  | data chunk =>
    simp only [readLoopStep] at h
    split at h
    · simp at h
    · split at h
      · rename_i hguard
        injection h with h1 h2
        subst h1
        rw [Bool.and_eq_true] at hguard
        obtain ⟨hseen, hsuffix⟩ := hguard
        exact ⟨hseen, hsuffix⟩
      · simp at h
  | streamErr => simp [readLoopStep] at h
  | deadline => simp [readLoopStep] at h
  | idlePoll elapsedMs =>
    simp only [readLoopStep] at h
    split at h <;> simp at h

/-- A run that breaks through the terminator branch ends with
`seenContent` raised and the trimmed output ending in `#`. -/
theorem runReadLoop_terminator :
    ∀ (sigs : List Sig) (st st' : CollectState),
      runReadLoop st sigs = (st', some ExitReason.terminator) →
      st'.seenContent = true ∧
        strHasSuffix (trimRightCutset st'.output [' ', '\r', '\n']) "#" = true := by
  intro sigs
  induction sigs with
  | nil => intro st st' h; simp [runReadLoop] at h
  | cons sig rest ih =>
    intro st st' h
    rw [runReadLoop] at h
    split at h
    · rename_i st2 w heq
      exact ih st2 st' h
    · rename_i st2 r heq
      injection h with h1 h2
      subst h1
      injection h2 with h2
      subst h2
      exact readLoopStep_stop_terminator heq

/-! ## Lemmas about the newline split and the trimming loop -/

theorem splitNl_ne_nil : ∀ l : List Char, splitNl l ≠ [] := by
  intro l
  cases l with
  | nil => simp [splitNl]
  | cons c t =>
    simp only [splitNl]
    split
    · simp
    · split <;> simp

/-- Splitting on newlines loses nothing: interleaving the pieces with
newlines gives back the original character list. -/
theorem splitNl_intercalate : ∀ l : List Char,
    List.intercalate ['\n'] (splitNl l) = l := by
  intro l
  induction l with
  | nil => simp [splitNl, List.intercalate]
  | cons c t ih =>
    simp only [splitNl]
    split
    · rename_i hc
      obtain ⟨h, r, hr⟩ : ∃ h r, splitNl t = h :: r := by
        cases he : splitNl t with
        | nil => exact absurd he (splitNl_ne_nil t)
        | cons h r => exact ⟨h, r, rfl⟩
      rw [hr]
      rw [hr] at ih
      have : List.intercalate ['\n'] ([] :: h :: r) =
          [] ++ ['\n'] ++ List.intercalate ['\n'] (h :: r) := by
        simp [List.intercalate, List.intersperse]
      rw [this, ih]
      simp [beq_iff_eq.mp hc]
    · rename_i hc
      cases he : splitNl t with
      | nil => exact absurd he (splitNl_ne_nil t)
      | cons h r =>
        rw [he] at ih
        have : List.intercalate ['\n'] ((c :: h) :: r) =
            c :: List.intercalate ['\n'] (h :: r) := by
          cases r with
          | nil => simp [List.intercalate]
          | cons y r2 => simp [List.intercalate, List.intersperse]
        rw [this, ih]

/-- No piece produced by the newline split contains a newline. -/
theorem splitNl_no_newline : ∀ (l : List Char) (p : List Char),
    p ∈ splitNl l → '\n' ∉ p := by
  intro l
  induction l with
  | nil => intro p hp; simp [splitNl] at hp; simp [hp]
  | cons c t ih =>
    intro p hp
    simp only [splitNl] at hp
    split at hp
    · rcases List.mem_cons.mp hp with h | h
      · simp [h]
      · exact ih p h
    · rename_i hc
      cases he : splitNl t with
      | nil => exact absurd he (splitNl_ne_nil t)
      | cons h r =>
        rw [he] at hp
        rcases List.mem_cons.mp hp with h2 | h2
        · subst h2
          intro hmem
          rcases List.mem_cons.mp hmem with h3 | h3
          · exact hc (beq_iff_eq.mpr h3.symm)
          · exact ih h (by simp [he]) h3
        · exact ih p (by simp [he, h2])

/-- A string is nonempty exactly when its character list is. -/
theorem str_ne_empty_iff {s : String} : s ≠ "" ↔ s.data ≠ [] := by
  constructor
  · intro h hd
    exact h (by cases s; simp at hd; simp [hd])
  · intro h hs
    subst hs
    simp at h

/-- Trimming trailing carriage-returns: the original line is the
trimmed text followed by some run of carriage-returns. -/
theorem trimRightCutset_cr_split (l : String) :
    ∃ n, l.data = (trimRightCutset l ['\r']).data ++ List.replicate n '\r' := by
  refine ⟨(l.data.reverse.takeWhile (fun c => decide (c ∈ ['\r']))).length, ?_⟩
  have hsplit :
      l.data.reverse.takeWhile (fun c => decide (c ∈ ['\r'])) ++
        l.data.reverse.dropWhile (fun c => decide (c ∈ ['\r'])) =
        l.data.reverse := List.takeWhile_append_dropWhile _ _
  have hrep : l.data.reverse.takeWhile (fun c => decide (c ∈ ['\r'])) =
      List.replicate
        (l.data.reverse.takeWhile (fun c => decide (c ∈ ['\r']))).length '\r' := by
    apply List.eq_replicate_of_mem
    intro b hb
    have := List.mem_takeWhile_imp hb
    simpa using this
  calc l.data = l.data.reverse.reverse := (List.reverse_reverse _).symm
    _ = (l.data.reverse.takeWhile (fun c => decide (c ∈ ['\r'])) ++
          l.data.reverse.dropWhile (fun c => decide (c ∈ ['\r']))).reverse := by
        rw [hsplit]
    _ = (trimRightCutset l ['\r']).data ++
          List.replicate
            (l.data.reverse.takeWhile (fun c => decide (c ∈ ['\r']))).length '\r' := by
        rw [List.reverse_append]
        simp only [trimRightCutset]
        rw [← hrep]
        congr 1
        rw [hrep, List.reverse_replicate]

/-- Every line kept by the printing loop is a CR-trimmed input line and
is non-empty. -/
theorem printLines_mem : ∀ (lines : List String) (l : String),
    l ∈ printLines lines →
    l ≠ "" ∧ ∃ orig ∈ lines, l = trimRightCutset orig ['\r'] := by
  intro lines
  induction lines with
  | nil => intro l hl; simp [printLines] at hl
  | cons x rest ih =>
    intro l hl
    simp only [printLines] at hl
    split at hl
    · rename_i hne
      rcases List.mem_cons.mp hl with h | h
      · subst h
        refine ⟨by simpa using hne, x, List.mem_cons_self _ _, rfl⟩
      · obtain ⟨h1, orig, ho, he⟩ := ih l h
        exact ⟨h1, orig, List.mem_cons_of_mem _ ho, he⟩
    · obtain ⟨h1, orig, ho, he⟩ := ih l hl
      exact ⟨h1, orig, List.mem_cons_of_mem _ ho, he⟩

/-! ## Lemmas about the reader goroutine -/

/-- A returned goroutine emits nothing, whatever else happens. -/
theorem readerRun_finished : ∀ (evs : List REv) (flag : Bool),
    readerRun .finished flag evs = [] := by
  intro evs
  induction evs with
  | nil => intro flag; rfl
  | cons ev rest ih =>
    intro flag
    cases ev with
    | setFlag => simpa [readerRun] using ih true
    | readRet r => simpa [readerRun] using ih flag

/-- At most one emission ever happens while the flag is set: the result
of the read in flight when the flag went up. -/
theorem readerRun_flagged_le_one :
    ∀ (evs : List REv) (st : RState) (flag : Bool),
      ((readerRun st flag evs).filter (fun p => p.1)).length ≤ 1 := by
  intro evs
  induction evs with
  | nil => intro st flag; simp [readerRun]
  | cons ev rest ih =>
    intro st flag
    cases ev with
    | setFlag => simpa [readerRun] using ih st true
    | readRet r =>
      cases st with
      | finished => simpa [readerRun] using ih .finished flag
      | reading =>
        cases r with
        | some c =>
          cases flag with
          | false => simpa [readerRun] using ih .reading false
          | true => simp [readerRun, readerRun_finished]
        | none =>
          cases flag with
          | false => simp [readerRun, readerRun_finished]
          | true => simp [readerRun, readerRun_finished]

/-! ## Further run lemmas -/

/-- An idle poll of 600 ms stops the loop when output has accumulated. -/
theorem runReadLoop_single_idle (st : CollectState) (h : st.output ≠ "") :
    runReadLoop st [Sig.idlePoll 600] = (st, some ExitReason.idleQuiet) := by
  have hd : st.output.data ≠ [] := str_ne_empty_iff.mp h
  have hstep : readLoopStep st (Sig.idlePoll 600) =
      StepOut.stop st ExitReason.idleQuiet := by
    simp only [readLoopStep]
    rw [if_pos]
    rw [Bool.and_eq_true]
    constructor
    · simp
    · simpa [List.isEmpty_iff] using hd
  simp [runReadLoop, hstep]

/-- A first chunk containing no `#` never triggers the terminator: the
loop continues with the chunk as the whole buffer. -/
theorem init_data_no_hash (chunk : String)
    (hh : strContains chunk "#" = false) :
    ∃ seen w, readLoopStep initCollect (Sig.data chunk) =
      StepOut.next ⟨chunk, seen⟩ w := by
  have e : ("" : String) ++ chunk = chunk := rfl
  by_cases hmore : strContains (strToLower chunk) "more" = true
  · refine ⟨false, [" "], ?_⟩
    simp [readLoopStep, hmore, initCollect, e]
  · have hmore2 : strContains (strToLower chunk) "more" = false := by
      simpa using hmore
    have hsuf : strHasSuffix
        (trimRightCutset (("" : String) ++ chunk) [' ', '\r', '\n']) "#" = false := by
      cases hq : strHasSuffix
          (trimRightCutset (("" : String) ++ chunk) [' ', '\r', '\n']) "#" with
      | false => rfl
      | true =>
        have := strContains_hash_of_suffix hq
        rw [e] at this
        rw [this] at hh
        exact absurd hh (by simp)
    refine ⟨strContains chunk "\n", [], ?_⟩
    rw [e] at hsuf
    simp [readLoopStep, hmore2, initCollect, e, hsuf]

/-! ## The claims -/

/-- C3: during response-collection, a chunk whose lowercase form
contains `"more"` is first appended to the accumulated output, exactly
one space character is written to the input sink, and the chunk is not
further processed in that iteration: the loop continues with
`seenContent` untouched and no completion check for that signal. -/
theorem claim3_pagination (st : CollectState) (chunk : String)
    (h : strContains (strToLower chunk) "more" = true) :
    readLoopStep st (Sig.data chunk) =
      StepOut.next ⟨st.output ++ chunk, st.seenContent⟩ [" "] := by
  simp [readLoopStep, h]

/-- Witness for C3 at the chunk `"--More--"`. -/
theorem claim3_pagination_witness :
    readLoopStep ⟨"x", false⟩ (Sig.data "--More--") =
      StepOut.next ⟨"x--More--", false⟩ [" "] :=
  (claim3_pagination ⟨"x", false⟩ "--More--" (by decide)).trans (by decide)

/-- C9: a single first chunk whose echoed command text ends in `#`
followed by a line break satisfies the terminator test immediately:
collection exits through the terminator branch with only the echo
`"show#\r\n"` in the buffer. -/
theorem claim9_echo_terminator :
    runReadLoop initCollect [Sig.data "show#\r\n"] =
      (⟨"show#\r\n", true⟩, some ExitReason.terminator) := by decide

/-- C5: a stream error or the 30-second deadline during collection is
not an error: both take the loop's break branches, and whatever
accumulated is still cleaned and returned through `Except.ok`, exactly
as on a successful completion (the same holds for every exit reason). -/
theorem claim5_soft_exit :
    (∀ st : CollectState,
        readLoopStep st Sig.streamErr = StepOut.stop st ExitReason.streamEnd) ∧
    (∀ st : CollectState,
        readLoopStep st Sig.deadline = StepOut.stop st ExitReason.deadline) ∧
    (∀ (psigs : List PromptSig) (csigs : List Sig)
        (st : CollectState) (r : ExitReason),
        runWaitPrompt psigs = some PromptOutcome.ready →
        runReadLoop initCollect csigs = (st, some r) →
        runEngine psigs csigs = Except.ok (cleanOutput st.output)) := by
  refine ⟨fun st => rfl, fun st => rfl, ?_⟩
  intro psigs csigs st r hp hc
  simp [runEngine, hp, hc]

/-- Witness for C5: a stream error right after the prompt still yields a
normal (empty) cleaned result. -/
theorem claim5_soft_exit_witness :
    runEngine [PromptSig.data "Switch#"] [Sig.streamErr] =
      Except.ok (cleanOutput initCollect.output) :=
  claim5_soft_exit.2.2 [PromptSig.data "Switch#"] [Sig.streamErr]
    initCollect ExitReason.streamEnd (by decide) (by decide)

/-- C6: cleaning splits the accumulated output on line-break boundaries
(nothing is lost: re-interleaving newlines restores the input), drops
the first and last line exactly when there are more than two lines,
leaves two or fewer lines unmodified by that rule, and on the scenario
input produces exactly the two payload lines. -/
theorem claim6_line_trimming :
    (∀ lines : List String, 2 < lines.length →
        selectBody lines = (lines.drop 1).dropLast) ∧
    (∀ lines : List String, lines.length ≤ 2 → selectBody lines = lines) ∧
    (∀ s : String, List.intercalate ['\n'] (splitNl s.data) = s.data) ∧
    cleanOutput "show vlan\r\nVLAN 1 Active\r\nVLAN 2 Active\r\nSwitch#" =
      ["VLAN 1 Active", "VLAN 2 Active"] := by
  refine ⟨?_, ?_, ?_, by decide⟩
  · intro lines h
    simp [selectBody, h]
  · intro lines h
    simp only [selectBody, gt_iff_lt]
    rw [if_neg (by omega)]
  · intro s
    exact splitNl_intercalate s.data

/-- Witness for C6 on three-line and two-line inputs. -/
theorem claim6_line_trimming_witness :
    selectBody ["a", "b", "c"] = ["b"] ∧
    selectBody ["a", "b"] = ["a", "b"] :=
  ⟨(claim6_line_trimming.1 ["a", "b", "c"] (by decide)).trans (by decide),
   claim6_line_trimming.2.1 ["a", "b"] (by decide)⟩

/-- C1: collection exits through the terminator branch only with
`seenContent` raised, hence only after some received chunk contained a
line break; and at a chunk that reaches the completion check (one whose
lowercase form does not contain `"more"`) with `seenContent` raised, the
terminator exit is taken exactly when the full accumulated output,
trimmed of trailing spaces, carriage-returns and line-breaks, ends in
`#`. -/
theorem claim1_terminator :
    (∀ (sigs : List Sig) (st : CollectState),
        runReadLoop initCollect sigs = (st, some ExitReason.terminator) →
        st.seenContent = true ∧
        (∃ c, Sig.data c ∈ sigs ∧ strContains c "\n" = true) ∧
        strHasSuffix (trimRightCutset st.output [' ', '\r', '\n']) "#" = true) ∧
    (∀ (st : CollectState) (chunk : String),
        strContains (strToLower chunk) "more" = false →
        (st.seenContent || strContains chunk "\n") = true →
        ((∃ st2, readLoopStep st (Sig.data chunk) =
            StepOut.stop st2 ExitReason.terminator) ↔
          strHasSuffix
            (trimRightCutset (st.output ++ chunk) [' ', '\r', '\n']) "#" = true)) := by
  constructor
  · intro sigs st h
    obtain ⟨hseen, hsuffix⟩ := runReadLoop_terminator sigs initCollect st h
    refine ⟨hseen, ?_, hsuffix⟩
    rcases runReadLoop_seen sigs initCollect st _ h hseen with h2 | h2
    · exact absurd h2 (by simp [initCollect])
    · exact h2
  · intro st chunk hmore hseen
    constructor
    · rintro ⟨st2, h⟩
      simp [readLoopStep, hmore] at h
      split at h
      · rename_i hguard
        exact hguard.2
      · simp at h
    · intro hsuffix
      refine ⟨⟨st.output ++ chunk, st.seenContent || strContains chunk "\n"⟩, ?_⟩
      simp [readLoopStep, hmore, hseen, hsuffix]

/-- Witness for C1 on the echo-only trace `["show#\r\n"]`. -/
theorem claim1_terminator_witness :
    (⟨"show#\r\n", true⟩ : CollectState).seenContent = true ∧
    (∃ c, Sig.data c ∈ [Sig.data "show#\r\n"] ∧ strContains c "\n" = true) ∧
    strHasSuffix
      (trimRightCutset (⟨"show#\r\n", true⟩ : CollectState).output
        [' ', '\r', '\n']) "#" = true :=
  claim1_terminator.1 [Sig.data "show#\r\n"] ⟨"show#\r\n", true⟩ (by decide)

/-- C2: the default branch of the loop exits through the idle-timeout
exactly when more than 500 ms have elapsed since the last chunk and the
accumulated output is non-empty; with an empty buffer the idle poll
never exits; and one chunk without `#` followed by 600 ms of silence
exits through the idle-timeout. -/
theorem claim2_idle_timeout :
    (∀ (st : CollectState) (e : Nat),
        readLoopStep st (Sig.idlePoll e) = StepOut.stop st ExitReason.idleQuiet ↔
          500 < e ∧ st.output ≠ "") ∧
    (∀ (st : CollectState) (e : Nat), st.output = "" →
        readLoopStep st (Sig.idlePoll e) = StepOut.next st []) ∧
    (∀ chunk : String, chunk ≠ "" → strContains chunk "#" = false →
        (runReadLoop initCollect [Sig.data chunk, Sig.idlePoll 600]).2 =
          some ExitReason.idleQuiet ∧
        (runReadLoop initCollect [Sig.data chunk, Sig.idlePoll 600]).1.output =
          chunk) := by
  refine ⟨?_, ?_, ?_⟩
  · intro st e
    constructor
    · intro h
      simp only [readLoopStep] at h
      split at h
      · rename_i hcond
        rw [Bool.and_eq_true] at hcond
        obtain ⟨h1, h2⟩ := hcond
        refine ⟨by simpa using h1, ?_⟩
        rw [str_ne_empty_iff]
        intro hd
        rw [hd] at h2
        simp at h2
      · simp at h
    · rintro ⟨h1, h2⟩
      have hd : st.output.data ≠ [] := str_ne_empty_iff.mp h2
      simp only [readLoopStep]
      rw [if_pos]
      rw [Bool.and_eq_true]
      exact ⟨by simpa using h1, by simpa [List.isEmpty_iff] using hd⟩
  · intro st e h
    have hd : st.output.data = [] := by rw [h]
    simp only [readLoopStep]
    rw [if_neg]
    rw [Bool.and_eq_true]
    rintro ⟨-, h2⟩
    rw [hd] at h2
    simp at h2
  · intro chunk hne hh
    obtain ⟨seen, w, hstep⟩ := init_data_no_hash chunk hh
    have hrun : runReadLoop initCollect [Sig.data chunk, Sig.idlePoll 600] =
        runReadLoop ⟨chunk, seen⟩ [Sig.idlePoll 600] := by
      rw [runReadLoop, hstep]
    rw [hrun, runReadLoop_single_idle ⟨chunk, seen⟩ hne]
    exact ⟨rfl, rfl⟩

/-- Witness for C2: the chunk `"hello"` followed by 600 ms of silence. -/
theorem claim2_idle_timeout_witness :
    (runReadLoop initCollect [Sig.data "hello", Sig.idlePoll 600]).2 =
      some ExitReason.idleQuiet ∧
    (runReadLoop initCollect [Sig.data "hello", Sig.idlePoll 600]).1.output =
      "hello" :=
  claim2_idle_timeout.2.2 "hello" (by decide) (by decide)

/-- C4: prompt-wait succeeds exactly on a chunk containing `#`; the
deadline yields the prompt-timeout failure and a stream error yields the
connection-closed failure; a trace of `#`-free chunks ending in the
deadline times out; and nothing seen during prompt-wait enters the
response buffer: any two successful prompt phases leave the engine with
identical results. -/
theorem claim4_prompt_wait :
    (∀ chunk : String,
        waitPromptStep (PromptSig.data chunk) = some PromptOutcome.ready ↔
          strContains chunk "#" = true) ∧
    (waitPromptStep PromptSig.deadline = some PromptOutcome.promptTimeout) ∧
    (waitPromptStep PromptSig.streamErr = some PromptOutcome.connectionClosed) ∧
    (∀ psigs : List PromptSig,
        (∀ c, PromptSig.data c ∈ psigs → strContains c "#" = false) →
        PromptSig.streamErr ∉ psigs →
        runWaitPrompt (psigs ++ [PromptSig.deadline]) =
          some PromptOutcome.promptTimeout) ∧
    (∀ (p1 p2 : List PromptSig) (csigs : List Sig),
        runWaitPrompt p1 = some PromptOutcome.ready →
        runWaitPrompt p2 = some PromptOutcome.ready →
        runEngine p1 csigs = runEngine p2 csigs) := by
  refine ⟨?_, rfl, rfl, ?_, ?_⟩
  · intro chunk
    cases hc : strContains chunk "#" <;> simp [waitPromptStep, hc]
  · intro psigs
    induction psigs with
    | nil => intro _ _; rfl
    | cons sig rest ih =>
      intro hnohash herr
      cases sig with
      | data c =>
        have hc : strContains c "#" = false :=
          hnohash c (List.mem_cons_self _ _)
        rw [List.cons_append, runWaitPrompt]
        simp only [waitPromptStep, hc]
        exact ih (fun c2 hc2 => hnohash c2 (List.mem_cons_of_mem _ hc2))
          (fun h2 => herr (List.mem_cons_of_mem _ h2))
      | streamErr => exact absurd (List.mem_cons_self _ _) herr
      | deadline => rfl
  · intro p1 p2 csigs h1 h2
    simp [runEngine, h1, h2]

/-- Witness for C4: a `#`-free trace times out; two different successful
prompt phases give the same engine result. -/
theorem claim4_prompt_wait_witness :
    runWaitPrompt ([PromptSig.data "Username: "] ++ [PromptSig.deadline]) =
      some PromptOutcome.promptTimeout ∧
    runEngine [PromptSig.data "a#"] [Sig.streamErr] =
      runEngine [PromptSig.data "Switch#"] [Sig.streamErr] :=
  ⟨claim4_prompt_wait.2.2.2.1 [PromptSig.data "Username: "]
      (by intro c hc; simp at hc; subst hc; decide) (by decide),
   claim4_prompt_wait.2.2.2.2 [PromptSig.data "a#"] [PromptSig.data "Switch#"]
      [Sig.streamErr] (by decide) (by decide)⟩

/-- C7 counterexample: the claim says a single trailing carriage-return
is stripped and a line is suppressed exactly when empty after that
single strip.  On the accumulated output `"\r\r"` the program strips
both carriage-returns and suppresses the line, while the single-strip
rule would keep the line `"\r"`. -/
theorem claim7_single_cr_counterexample :
    cleanOutput "\r\r" = [] ∧ cleanOutputOneCR "\r\r" = ["\r"] ∧
    cleanOutput "\r\r" ≠ cleanOutputOneCR "\r\r" := by decide

/-- C7 amended: each retained line has all trailing carriage-returns
stripped (the stripped text never ends in a carriage-return, and the
original line is the stripped text followed by a run of
carriage-returns), and a line is suppressed exactly when it is empty
after that stripping. -/
theorem claim7_all_cr_amended :
    (∀ (l : String) (rest : List String),
        printLines (l :: rest) =
          if trimRightCutset l ['\r'] = "" then printLines rest
          else trimRightCutset l ['\r'] :: printLines rest) ∧
    (∀ l : String, strHasSuffix (trimRightCutset l ['\r']) "\r" = false) ∧
    (∀ l : String, ∃ n,
        l.data = (trimRightCutset l ['\r']).data ++ List.replicate n '\r') := by
  refine ⟨?_, ?_, trimRightCutset_cr_split⟩
  · intro l rest
    by_cases h : trimRightCutset l ['\r'] = ""
    · simp [printLines, h]
    · simp [printLines, h]
  · intro l
    exact trimRightCutset_no_trailing (by decide)

/-- C8 counterexample: the reader goroutine checks the cancellation flag
only between reads, so the read in flight when the flag goes up still
has its result emitted onto the signal queue: on the event trace
"flag set, then the pending read returns" an emission is recorded with
the flag already set. -/
theorem claim8_no_signal_counterexample :
    ¬ (∀ (evs : List REv) (p : Bool × REmit),
        p ∈ readerRun RState.reading false evs → p.1 = false) := by
  intro h
  have h2 := h [REv.setFlag, REv.readRet (some "x")]
    (true, REmit.dataSig "x") (by decide)
  simp at h2

/-- C8 amended: after the cancellation flag is set, the reader emits at
most one further signal — the result of the read already in flight —
and once it has returned (which it does at the first flag check after
the flag is set) it emits nothing more. -/
theorem claim8_at_most_one_after_flag :
    (∀ (evs : List REv) (st : RState) (flag : Bool),
        ((readerRun st flag evs).filter (fun p => p.1)).length ≤ 1) ∧
    (∀ (evs : List REv) (flag : Bool),
        readerRun RState.finished flag evs = []) :=
  ⟨readerRun_flagged_le_one, readerRun_finished⟩

/-- C10: every line of the cleaned result is non-empty and free of a
trailing carriage-return: all trailing carriage-returns are removed from
each line, so a raw line ending in several consecutive carriage-returns
still yields a CR-free output line, as on `"a\r\r"`. -/
theorem claim10_clean_lines_cr_free :
    (∀ (s l : String), l ∈ cleanOutput s →
        l ≠ "" ∧ strHasSuffix l "\r" = false) ∧
    cleanOutput "a\r\r" = ["a"] := by
  constructor
  · intro s l h
    obtain ⟨hne, orig, _, he⟩ := printLines_mem _ l h
    subst he
    exact ⟨hne, trimRightCutset_no_trailing (by decide)⟩
  · decide

/-- Witness for C10 on the cleaned result of `"a\r\r"`. -/
theorem claim10_clean_lines_cr_free_witness :
    ("a" : String) ≠ "" ∧ strHasSuffix "a" "\r" = false :=
  claim10_clean_lines_cr_free.1 "a\r\r" "a" (by decide)

end Zyxel
